import Mathlib

/-!
# Verification of the geographyschool location-search subsystem

Shallow embedding of the gazetteer data pipeline and search engine of the
`geographyschool` repository.

* Offline data scripts (`scripts/processAllCountries.cjs`, reproduced in the
  repository sources, and `scripts/generateBboxes.cjs`) are embedded directly
  from their JavaScript source: `parseGeoNamesLine`, the per-country entry
  construction, and the bounding-box generator.
* The client search engine (`src/utils/searchEngine.ts`) is not present in the
  available sources (only its callers `SearchDropdown.tsx` / `MapContainer.tsx`
  are), so its operations are modelled from the specification; each such
  definition carries a doc comment starting `Modelled from the spec:`.

JavaScript numbers are modelled as `JSNum`: `NaN`, the two infinities, or a
finite rational. Machine floats' rounding is not modelled; none of the proved
properties depends on it.
-/

/-- A JavaScript number: `NaN`, `Infinity`, `-Infinity`, or a finite value
(modelled as a rational). -/
inductive JSNum where
  | nan : JSNum
  | inf : JSNum
  | negInf : JSNum
  | finite : ℚ → JSNum
deriving DecidableEq

/-- `Number.isNaN` on the `JSNum` model. -/
def JSNum.isNaN : JSNum → Bool
  | .nan => true
  | _ => false

/-- `true` exactly on finite values. -/
def JSNum.isFinite : JSNum → Bool
  | .finite _ => true
  | _ => false

/-- Split a character list at every occurrence of `sep`, JavaScript
`String.prototype.split` style (an empty input yields `[[]]`). -/
def splitCharsOn (sep : Char) : List Char → List Char → List (List Char)
  | [], acc => [acc.reverse]
  | c :: t, acc =>
    if c = sep then acc.reverse :: splitCharsOn sep t [] else splitCharsOn sep t (c :: acc)

/-- JavaScript `s.split(sep)` for a one-character separator. -/
def jsSplit (s : String) (sep : Char) : List String :=
  (splitCharsOn sep s.data []).map (fun l => ⟨l⟩)

/-- JavaScript `s.trim()`: strip leading and trailing whitespace. -/
def jsTrim (s : String) : String :=
  ⟨((s.data.dropWhile Char.isWhitespace).reverse.dropWhile Char.isWhitespace).reverse⟩

/-- ASCII lower-casing of one character (the case-insensitivity the matcher
needs for its Latin-script names). -/
def asciiLower (c : Char) : Char :=
  if 'A' ≤ c ∧ c ≤ 'Z' then Char.ofNat (c.toNat + 32) else c

/-- ASCII upper-casing of one character. -/
def asciiUpper (c : Char) : Char :=
  if 'a' ≤ c ∧ c ≤ 'z' then Char.ofNat (c.toNat - 32) else c

/-- JavaScript `s.toLowerCase()` (modelled on the ASCII range). -/
def jsToLower (s : String) : String := ⟨s.data.map asciiLower⟩

/-- JavaScript `s.toUpperCase()` (modelled on the ASCII range). -/
def jsToUpper (s : String) : String := ⟨s.data.map asciiUpper⟩

/-- Consume a maximal run of decimal digits: returns the accumulated value,
the number of digits consumed, and the remaining characters. -/
def parseDigitsAux : List Char → ℕ → ℕ → ℕ × ℕ × List Char
  | [], v, n => (v, n, [])
  | c :: t, v, n =>
    if c.isDigit then parseDigitsAux t (10 * v + (c.toNat - 48)) (n + 1)
    else (v, n, c :: t)

/-- Parse an optional exponent part (after the `e`/`E`): optional sign then
digits; a malformed exponent contributes `0`, as `parseFloat` ignores a
trailing partial exponent. -/
def parseExpPart (l : List Char) : ℤ :=
  let (neg, l1) := match l with
    | '-' :: t => (true, t)
    | '+' :: t => (false, t)
    | _ => (false, l)
  let (v, n, _) := parseDigitsAux l1 0 0
  if n = 0 then 0 else if neg then -(v : ℤ) else (v : ℤ)

/-- JavaScript `parseFloat`: skip leading whitespace, optional sign, then
either the literal `Infinity` or a decimal literal `digits [. digits]
[e|E exponent]`; if no digits are found the result is `NaN`. -/
def parseFloat (s : String) : JSNum :=
  let l := s.data.dropWhile (fun c => c = ' ' || c = '\t' || c = '\n' || c = '\r')
  let (neg, l) := match l with
    | '-' :: t => (true, t)
    | '+' :: t => (false, t)
    | _ => (false, l)
  if ("Infinity".data).isPrefixOf l then (if neg then .negInf else .inf)
  else
    let (ip, ic, l1) := parseDigitsAux l 0 0
    let (fp, fc, l2) := match l1 with
      | '.' :: t => parseDigitsAux t 0 0
      | _ => (0, 0, l1)
    if ic = 0 ∧ fc = 0 then .nan
    else
      let mantissa : ℚ := (ip : ℚ) + (fp : ℚ) / (10 ^ fc : ℚ)
      let e : ℤ := match l2 with
        | c :: t => if c = 'e' ∨ c = 'E' then parseExpPart t else 0
        | [] => 0
      let q := mantissa * (10 : ℚ) ^ e
      .finite (if neg then -q else q)

/-- JavaScript `parseInt(s) || 0` for base-10 input: optional sign and leading
digits; when no digits are found `parseInt` yields `NaN` and `|| 0` turns it
into `0`. -/
def parseIntOr0 (s : String) : ℤ :=
  let l := s.data.dropWhile (fun c => c = ' ' || c = '\t' || c = '\n' || c = '\r')
  let (neg, l1) := match l with
    | '-' :: t => (true, t)
    | '+' :: t => (false, t)
    | _ => (false, l)
  let (v, n, _) := parseDigitsAux l1 0 0
  if n = 0 then 0 else if neg then -(v : ℤ) else (v : ℤ)

/-- JavaScript `Math.round`: round half up, `⌊x + 1/2⌋`. -/
def jsRound (q : ℚ) : ℤ := ⌊q + 1 / 2⌋

/-- `Math.round(x * 100000) / 100000` on a JavaScript number: finite values
are rounded to 5 decimal places; the infinities and `NaN` pass through
(`Math.round(±Infinity) = ±Infinity`). -/
def round5 : JSNum → JSNum
  | .finite q => .finite ((jsRound (q * 100000) : ℚ) / 100000)
  | x => x

/-- One record of a per-country (villages) dataset file, exactly as the object
literal in `parseGeoNamesLine` of `scripts/processAllCountries.cjs` builds it:
mandatory keys `id, n, lat, lng, p`; `a` and `alt` are added only under the
conditions in the source. -/
structure VillageEntry where
  id : String
  n : String
  lat : JSNum
  lng : JSNum
  p : ℤ
  a : Option String
  alt : Option (List String)
deriving DecidableEq

/-- The JSON keys present on the serialized entry: the five unconditional keys
plus `a` and `alt` when the source's conditional assignments fired. -/
def VillageEntry.keys (e : VillageEntry) : List String :=
  ["id", "n", "lat", "lng", "p"]
    ++ (if e.a.isSome then ["a"] else [])
    ++ (if e.alt.isSome then ["alt"] else [])

/-- The `altNames` local of `parseGeoNamesLine`: when the raw
`alternatenames` field is non-empty (JS truthiness), split it on commas, keep
the entries that are non-empty and differ from both the name and the ascii
name, and take the first 5 (`.slice(0, 5)`). -/
def altNamesOf (alternatenames name asciiname : String) : List String :=
  if alternatenames ≠ "" then
    ((jsSplit alternatenames ',').filter
      (fun x => x ≠ "" ∧ x ≠ name ∧ x ≠ asciiname)).take 5
  else []

/-- `parseGeoNamesLine` of `scripts/processAllCountries.cjs`: split the line on
tabs, require at least 18 fields, keep only feature classes `P` and `A`, drop
the line when `parseFloat` of latitude or longitude is `NaN`, and build the
compact entry (population via `parseInt(..) || 0`, coordinates rounded to 5
decimals, ascii name only when non-empty and different from the name, up to 5
alternate names that are non-empty and differ from both names). -/
def parseGeoNamesLine (line : String) : Option VillageEntry :=
  let fields := jsSplit line '\t'
  if fields.length < 18 then none
  else
    let featureClass := fields.getD 6 ""
    if featureClass ≠ "P" ∧ featureClass ≠ "A" then none
    else
      let lat := parseFloat (fields.getD 4 "")
      let lng := parseFloat (fields.getD 5 "")
      if lat.isNaN ∨ lng.isNaN then none
      else
        let pop := parseIntOr0 (fields.getD 14 "")
        let name := fields.getD 1 ""
        let asciiname := fields.getD 2 ""
        let alternatenames := fields.getD 3 ""
        let altNames := altNamesOf alternatenames name asciiname
        some { id := fields.getD 0 ""
               n := name
               lat := round5 lat
               lng := round5 lng
               p := pop
               a := if asciiname ≠ "" ∧ asciiname ≠ name then some asciiname else none
               alt := if altNames ≠ [] then some altNames else none }

/-- The per-file parse loop of `processCountry`: each line is parsed
independently and dropped lines contribute nothing; the batch is a total
function of the lines (it cannot fail). -/
def processLines (lines : List String) : List VillageEntry :=
  lines.filterMap parseGeoNamesLine

/-! ## Bounding-box generator (`scripts/generateBboxes.cjs`) -/

/-- A place as read back from a written country file by the bounding-box
generator: only `lat` and `lng` are inspected. -/
structure BPlace where
  lat : ℚ
  lng : ℚ
deriving DecidableEq

/-- The generator's running minimum: `if (x < m) m = x` folded over a list,
starting from the initial sentinel. -/
def foldRunMin (init : ℚ) (xs : List ℚ) : ℚ :=
  xs.foldl (fun m x => if x < m then x else m) init

/-- The generator's running maximum: `if (x > m) m = x` folded over a list. -/
def foldRunMax (init : ℚ) (xs : List ℚ) : ℚ :=
  xs.foldl (fun m x => if m < x then x else m) init

/-- `Math.round(x * 1000) / 1000`: round to 3 decimal places. -/
def round3 (q : ℚ) : ℚ := (jsRound (q * 1000) : ℚ) / 1000

/-- The conditional `entry.push(chunks)`: the trailing chunk count appended to
an entry, present exactly when `chunks` is defined and greater than 1. -/
def chunkTail : Option ℕ → List ℚ
  | some k => if 1 < k then [(k : ℚ)] else []
  | none => []

/-- One country's processing in `main` of `scripts/generateBboxes.cjs`:
`contents` are the contents of the country's data files that were found
(each file a JSON array of places); `chunks` is the country's `chunks` field
from `_index.json` (absent for single-file countries). The bounds fold starts
from the sentinels `90 / -90 / 180 / -180`, a `0.1`-degree padding is applied,
each bound is rounded to 3 decimals, and the `chunks` count is appended as a
fifth element exactly when it is present and greater than 1; countries with no
data produce no entry. -/
def genBboxEntry (chunks : Option ℕ) (contents : List (List BPlace)) : Option (List ℚ) :=
  if contents.any (fun f => ¬ f.isEmpty) then
    let places := contents.flatten
    let minLat := foldRunMin 90 (places.map (·.lat)) - 1 / 10
    let maxLat := foldRunMax (-90) (places.map (·.lat)) + 1 / 10
    let minLng := foldRunMin 180 (places.map (·.lng)) - 1 / 10
    let maxLng := foldRunMax (-180) (places.map (·.lng)) + 1 / 10
    some ([round3 minLat, round3 minLng, round3 maxLat, round3 maxLng] ++ chunkTail chunks)
  else none

/-- The `(key, value)` pair written into `_bboxes.json` for one country:
the key is `code.toUpperCase()`. -/
def genBboxPair (code : String) (chunks : Option ℕ) (contents : List (List BPlace)) :
    Option (String × List ℚ) :=
  (genBboxEntry chunks contents).map (fun e => (jsToUpper code, e))

/-! ## Search engine (`src/utils/searchEngine.ts`, modelled from the spec)

The module `src/utils/searchEngine.ts` is not part of the available sources;
only its callers are (`SearchDropdown.tsx` imports `initializeSearchEngine`,
`fuzzySearch`, `SearchResult`; `MapContainer.tsx` imports
`checkAndLoadCountries`). The definitions below are therefore modelled from
the specification (§3–§5). -/

/-- Modelled from the spec: the `featureClass` enumeration of a
`PlaceRecord` (§3). -/
inductive FeatureClass where
  | country : FeatureClass
  | capital : FeatureClass
  | city : FeatureClass
  | town : FeatureClass
  | village : FeatureClass
  | landmark : FeatureClass
deriving DecidableEq

/-- Modelled from the spec: the feature-class priority weight of §4.3(4),
`country > capital > city > town > village > landmark`; the exact constants
are an implementation choice left open by §9. -/
def FeatureClass.weight : FeatureClass → ℕ
  | .country => 60
  | .capital => 50
  | .city => 40
  | .town => 30
  | .village => 20
  | .landmark => 10

/-- Modelled from the spec: `recommendedZoom` derived from the feature class
(§3: country≈5, capital/city≈10–12, town≈13, village≈14). -/
def FeatureClass.recommendedZoom : FeatureClass → ℕ
  | .country => 5
  | .capital => 10
  | .city => 12
  | .town => 13
  | .village => 14
  | .landmark => 13

/-- Modelled from the spec: a `PlaceRecord` of the gazetteer index (§3). -/
structure PlaceRecord where
  id : String
  primaryName : String
  asciiName : Option String
  alternateNames : List String
  countryCode : String
  population : ℕ
  lat : ℚ
  lng : ℚ
  featureClass : FeatureClass
deriving DecidableEq

/-- Modelled from the spec: a `SearchResult` as delivered to the UI (§4.3);
the locale-preferred display name is modelled as `primaryName` since the call
sites pass no locale (`fuzzySearch(searchQuery, 8)`), and `country` carries
the record's `countryCode` (its display-name resolution is external). -/
structure SearchResult where
  id : String
  name : String
  lat : ℚ
  lng : ℚ
  zoom : ℕ
  type : FeatureClass
  country : String
deriving DecidableEq

/-- The names a record is matched under: `primaryName`, `asciiName` when
present, and each alternate name (§4.3 candidate generation). -/
def PlaceRecord.searchNames (r : PlaceRecord) : List String :=
  r.primaryName :: (r.asciiName.toList ++ r.alternateNames)

/-- Index of the first occurrence of `q` in `n` (as character lists), or
`none` when `q` is not a substring of `n`. -/
def firstMatchPos (q : List Char) : List Char → Option ℕ
  | [] => if q = [] then some 0 else none
  | c :: t => if q.isPrefixOf (c :: t) then some 0 else (firstMatchPos q t).map (· + 1)

/-- Modelled from the spec: the additive text-match score of one name against
the normalized (trimmed, lowercased) query `nq` (§4.3(1–3)): an exact
full-string match gets the highest fixed bonus (1000); a prefix match gets the
second-highest fixed bonus scaled up by the prefix's coverage of the name
(500 + 100·|q|/|n| ≤ 600); a substring match gets a lower bonus reduced by the
match's starting offset (300 − min(offset, 200) ∈ [100, 299]); no match scores
0. The exact constants are an implementation choice left open by §9; only
their ordering is specified. -/
def textScore (nq : String) (name : String) : ℕ :=
  let n := jsToLower name
  if n = nq then 1000
  else
    match firstMatchPos nq.data n.data with
    | some 0 => 500 + 100 * nq.length / n.length
    | some off => 300 - min off 200
    | none => 0

/-- The best text score of a record over all of its searchable names. -/
def bestTextScore (nq : String) (r : PlaceRecord) : ℕ :=
  (r.searchNames.map (textScore nq)).foldl max 0

/-- Modelled from the spec: the total additive score (§4.3): text score, then
the feature-class weight and the logarithmic population term as tie-breaking
additive terms scaled so that they can never overturn a strictly better text
score (they "only distinguish otherwise-equal scores"). -/
def recordScore (nq : String) (r : PlaceRecord) : ℕ :=
  bestTextScore nq r * 10000 + r.featureClass.weight * 100
    + min (Nat.log2 (1 + r.population)) 99

/-- The deduplication key of §4.3: normalized display name within the same
country. -/
def dedupKey (r : PlaceRecord) : String × String :=
  (jsToLower r.primaryName, r.countryCode)

/-- `y` displaces `x` during deduplication: strictly higher score, or equal
score and smaller id (so exactly one record per key survives). -/
def outranks (nq : String) (y x : PlaceRecord) : Bool :=
  decide (recordScore nq x < recordScore nq y)
    || (decide (recordScore nq y = recordScore nq x) && decide (y.id < x.id))

/-- Modelled from the spec: deduplication (§4.3): of the records sharing one
`dedupKey`, only the highest-scored one is kept. -/
def dedupe (nq : String) (l : List PlaceRecord) : List PlaceRecord :=
  l.filter (fun x => ! l.any (fun y => decide (dedupKey y = dedupKey x) && outranks nq y x))

/-- The output order of §4.3: descending score, ties stably resolved by id. -/
def rankLE (nq : String) (x y : PlaceRecord) : Prop :=
  recordScore nq y < recordScore nq x
    ∨ (recordScore nq x = recordScore nq y ∧ x.id ≤ y.id)

instance rankLE.decidableRel (nq : String) : DecidableRel (rankLE nq) := fun x y => by
  unfold rankLE; infer_instance

instance rankLE.isTotal (nq : String) : IsTotal PlaceRecord (rankLE nq) := by
  constructor
  intro x y
  rcases lt_trichotomy (recordScore nq x) (recordScore nq y) with h | h | h
  · exact Or.inr (Or.inl h)
  · rcases le_total x.id y.id with h2 | h2
    · exact Or.inl (Or.inr ⟨h, h2⟩)
    · exact Or.inr (Or.inr ⟨h.symm, h2⟩)
  · exact Or.inl (Or.inl h)

instance rankLE.isTrans (nq : String) : IsTrans PlaceRecord (rankLE nq) := by
  constructor
  intro a b c hab hbc
  rcases hab with h1 | ⟨h1, h1i⟩ <;> rcases hbc with h2 | ⟨h2, h2i⟩
  · exact Or.inl (by omega)
  · exact Or.inl (by omega)
  · exact Or.inl (by omega)
  · exact Or.inr ⟨by omega, h1i.trans h2i⟩

/-- The `SearchResult` built from a record (§4.3 output contract). -/
def toResult (r : PlaceRecord) : SearchResult :=
  { id := r.id
    name := r.primaryName
    lat := r.lat
    lng := r.lng
    zoom := r.featureClass.recommendedZoom
    type := r.featureClass
    country := r.countryCode }

/-- Modelled from the spec: `fuzzySearch(query, limit)` (§4.3): pure function
of the resident index; empty or whitespace-only query returns `[]`
immediately; otherwise candidates are the records one of whose names matches
the normalized query, deduplicated, ordered by descending score (ties by id),
and truncated to `limit`. -/
def fuzzySearch (index : List PlaceRecord) (query : String) (limit : ℕ) :
    List SearchResult :=
  let nq := jsToLower (jsTrim query)
  if nq = "" then []
  else
    let cands := index.filter (fun r => decide (0 < bestTextScore nq r))
    let kept := dedupe nq cands
    let ranked := List.insertionSort (rankLE nq) kept
    (ranked.map toResult).take limit

/-- Modelled from the spec: a country bounding box as stored in the
bounding-box table, `[minLat, minLng, maxLat, maxLng]` (§3, §6). -/
structure CountryBBox where
  minLat : ℚ
  minLng : ℚ
  maxLat : ℚ
  maxLng : ℚ
deriving DecidableEq

/-- Modelled from the spec: the viewport-center containment test of §4.2: a
plain rectangle test on latitude and longitude, except that a box with
`minLng > maxLng` crosses the antimeridian and is tested as the union of
`[minLng, 180]` and `[-180, maxLng]`. -/
def containsCenter (b : CountryBBox) (lat lng : ℚ) : Bool :=
  (decide (b.minLat ≤ lat) && decide (lat ≤ b.maxLat)) &&
    (if b.minLng > b.maxLng then
       (decide (b.minLng ≤ lng) && decide (lng ≤ 180))
         || (decide (-180 ≤ lng) && decide (lng ≤ b.maxLng))
     else decide (b.minLng ≤ lng) && decide (lng ≤ b.maxLng))

/-! ### Dataset loader (modelled from the spec, §4.1 and §5)

The loader runs on one browser event loop, so its behaviour is a sequence of
atomic steps: a `loadCountry` call either observes an already-loaded country,
joins the in-flight promise, or starts a new load (issuing one fetch per chunk
file before yielding); a `complete` step resolves an in-flight load. A fetch
of chunk `i` of country `code` is logged as the pair `(code, i)`. -/

/-- An event on the loader: a `loadCountry(code)` invocation, or the
resolution of the in-flight load of `code`. -/
inductive LoaderOp where
  | call : String → LoaderOp
  | complete : String → LoaderOp
deriving DecidableEq

/-- The loader's session state: fully loaded countries, in-flight loads with
the promise each caller is handed, the next fresh promise id, and the log of
network fetches issued so far. -/
structure LoaderState where
  loaded : List String
  inFlight : List (String × ℕ)
  nextPid : ℕ
  fetchLog : List (String × ℕ)
deriving DecidableEq

/-- The chunk files of one country: `(code, i)` for `i < chunkCount code`. -/
def chunkFiles (cc : String → ℕ) (code : String) : List (String × ℕ) :=
  (List.range (cc code)).map (fun i => (code, i))

/-- Modelled from the spec: one `loadCountry(code)` invocation (§4.1):
already loaded resolves immediately with no fetch; an in-flight load hands
the caller the existing promise with no fetch; otherwise a fresh promise is
created and every chunk file of the country is fetched once. Returns the new
state and the promise the caller awaits (`none` for the immediate resolve). -/
def loadCountryCall (cc : String → ℕ) (s : LoaderState) (code : String) :
    LoaderState × Option ℕ :=
  if code ∈ s.loaded then (s, none)
  else
    match s.inFlight.find? (fun p => decide (p.1 = code)) with
    | some p => (s, some p.2)
    | none =>
      ({ loaded := s.loaded
         inFlight := (code, s.nextPid) :: s.inFlight
         nextPid := s.nextPid + 1
         fetchLog := s.fetchLog ++ chunkFiles cc code }, some s.nextPid)

/-- The in-flight load of `code` resolves: the country becomes loaded. -/
def loadComplete (s : LoaderState) (code : String) : LoaderState :=
  { s with
    loaded := code :: s.loaded
    inFlight := s.inFlight.filter (fun p => decide (p.1 ≠ code)) }

/-- One loader event. -/
def loaderStep (cc : String → ℕ) (s : LoaderState) : LoaderOp → LoaderState
  | .call code => (loadCountryCall cc s code).1
  | .complete code => loadComplete s code

/-- The loader's initial state. -/
def loaderInit : LoaderState :=
  { loaded := [], inFlight := [], nextPid := 0, fetchLog := [] }

/-- The loader state after a sequence of interleaved events of one session. -/
def runLoader (cc : String → ℕ) (ops : List LoaderOp) : LoaderState :=
  ops.foldl (loaderStep cc) loaderInit

/-! ### Gazetteer index merge (modelled from the spec, §3 and §4.1) -/

/-- Modelled from the spec: merging a batch of parsed records into the index
"by `id` (skip if already present)" (§4.1); the index is append-only. -/
def mergeRecords (index : List PlaceRecord) (recs : List PlaceRecord) :
    List PlaceRecord :=
  recs.foldl
    (fun acc r => if acc.any (fun x => decide (x.id = r.id)) then acc else acc ++ [r])
    index

/-- The index contents after any sequence of `initialize` / `loadMajor` /
`loadCountry` commits, each of which merges one batch of parsed records into
the index. -/
def runIndexLoads (batches : List (List PlaceRecord)) : List PlaceRecord :=
  batches.foldl mergeRecords []

/-! ### Concrete fixtures used by witnesses and counterexamples -/

/-- A well-formed GeoNames line for Sofia (18 tab-separated fields). -/
def sofiaLine : String :=
  "727011\tSofia\tSofia\tСофия,Sofiya,Sofija,BG-Sofia,Sofía,Sofja,Szófia\t42.69751\t23.32415\tP\tPPLC\tBG\t\t\t\t\t\t1300000\t\t\t615"

/-- A GeoNames line whose latitude field is the literal `Infinity` (and is
therefore not NaN under `parseFloat`, so the record is kept). -/
def infLatLine : String :=
  "9999\tNowhere\tNowhere\t\tInfinity\t23.5\tP\tPPL\tBG\t\t\t\t\t\t10\t\t\t615"

/-- A GeoNames line with an empty latitude field (`parseFloat` yields NaN,
so the record is dropped). -/
def nanLatLine : String :=
  "8888\tGhost\tGhost\t\t\t23.5\tP\tPPL\tBG\t\t\t\t\t\t10\t\t\t615"

/-- The antimeridian-crossing Fiji box of §8: `[-20, 176, -15, -178]`. -/
def fjBox : CountryBBox := { minLat := -20, minLng := 176, maxLat := -15, maxLng := -178 }

/-- A capital record used by the search witnesses. -/
def sofiaRec : PlaceRecord :=
  { id := "727011"
    primaryName := "Sofia"
    asciiName := none
    alternateNames := ["Sofiya"]
    countryCode := "BG"
    population := 1300000
    lat := 42
    lng := 23
    featureClass := .capital }

/-- A second record whose names merely contain the query `"sofia"` as a
prefix/substring, never as the full string. -/
def sofiaSpringsRec : PlaceRecord :=
  { id := "900001"
    primaryName := "Sofia Springs"
    asciiName := none
    alternateNames := []
    countryCode := "BG"
    population := 2000
    lat := 42
    lng := 23
    featureClass := .village }

/-- The demo index for the search witnesses (the exact match is listed last
so that ranking, not input order, puts it first). -/
def demoIndex : List PlaceRecord := [sofiaSpringsRec, sofiaRec]

/-- The entry `parseGeoNamesLine` produces for `sofiaLine` (coordinates and
population left as the parse-time expressions, which keeps the record
definitionally equal to the parse result). -/
def sofiaEntry : VillageEntry :=
  { id := "727011"
    n := "Sofia"
    lat := round5 (parseFloat "42.69751")
    lng := round5 (parseFloat "23.32415")
    p := parseIntOr0 "1300000"
    a := none
    alt := some ["София", "Sofiya", "Sofija", "BG-Sofia", "Sofía"] }

/-- The loader's reachable-state invariant: every chunk file has been fetched
at most once; a country that is neither loaded nor in flight has no fetches;
in-flight countries are pairwise distinct and not yet loaded. -/
def LoaderInv (s : LoaderState) : Prop :=
  s.fetchLog.Nodup ∧
  (∀ f : String × ℕ, f.1 ∉ s.loaded → (∀ p ∈ s.inFlight, p.1 ≠ f.1) → f ∉ s.fetchLog) ∧
  (s.inFlight.map Prod.fst).Nodup ∧
  (∀ p ∈ s.inFlight, p.1 ∉ s.loaded)

/-!
# Theorems

Shared helper lemmas first, then for each claim its theorem (with witness or
counterexample where required).
-/

theorem foldl_max_init (a : ℕ) (xs : List ℕ) : a ≤ xs.foldl max a := by
  induction xs generalizing a with
  | nil => exact le_refl a
  | cons x t ih => exact le_trans (le_max_left a x) (ih (max a x))

theorem foldl_max_mem (xs : List ℕ) (a x : ℕ) (h : x ∈ xs) : x ≤ xs.foldl max a := by
  induction xs generalizing a with
  | nil => cases h
  | cons y t ih =>
    rcases List.mem_cons.mp h with rfl | h2
    · exact le_trans (le_max_right a x) (foldl_max_init _ t)
    · exact ih (max a y) h2

theorem foldl_max_le (xs : List ℕ) (a c : ℕ) (ha : a ≤ c) (h : ∀ x ∈ xs, x ≤ c) :
    xs.foldl max a ≤ c := by
  induction xs generalizing a with
  | nil => exact ha
  | cons y t ih =>
    exact ih (max a y) (max_le ha (h y (List.mem_cons_self y t)))
      fun x hx => h x (List.mem_cons_of_mem _ hx)

theorem foldRunMin_le_init (init : ℚ) (xs : List ℚ) : foldRunMin init xs ≤ init := by
  induction xs generalizing init with
  | nil => exact le_refl init
  | cons x t ih =>
    refine le_trans (ih _) ?_
    by_cases h : x < init
    · simp [foldRunMin, h, le_of_lt h]
    · simp [foldRunMin, h]

theorem foldRunMin_le_mem (init : ℚ) (xs : List ℚ) (x : ℚ) (h : x ∈ xs) :
    foldRunMin init xs ≤ x := by
  induction xs generalizing init with
  | nil => cases h
  | cons y t ih =>
    rcases List.mem_cons.mp h with rfl | h2
    · refine le_trans (foldRunMin_le_init _ t) ?_
      by_cases hy : x < init <;> simp [foldRunMin, hy]
      exact le_of_not_lt hy
    · exact ih _ h2

theorem le_foldRunMax_init (init : ℚ) (xs : List ℚ) : init ≤ foldRunMax init xs := by
  induction xs generalizing init with
  | nil => exact le_refl init
  | cons x t ih =>
    refine le_trans ?_ (ih _)
    by_cases h : init < x
    · simp [foldRunMax, h, le_of_lt h]
    · simp [foldRunMax, h]

theorem le_foldRunMax_mem (init : ℚ) (xs : List ℚ) (x : ℚ) (h : x ∈ xs) :
    x ≤ foldRunMax init xs := by
  induction xs generalizing init with
  | nil => cases h
  | cons y t ih =>
    rcases List.mem_cons.mp h with rfl | h2
    · refine le_trans ?_ (le_foldRunMax_init _ t)
      by_cases hy : init < x <;> simp [foldRunMax, hy]
      exact le_of_not_lt hy
    · exact ih _ h2

theorem round3_le (q : ℚ) : round3 q ≤ q + 1 / 2000 := by
  unfold round3 jsRound
  have h := Int.floor_le (q * 1000 + 1 / 2)
  rw [div_le_iff₀ (by norm_num : (0 : ℚ) < 1000)]
  calc (⌊q * 1000 + 1 / 2⌋ : ℚ) ≤ q * 1000 + 1 / 2 := h
  _ = (q + 1 / 2000) * 1000 := by ring

theorem le_round3 (q : ℚ) : q - 1 / 2000 ≤ round3 q := by
  unfold round3 jsRound
  have h := Int.sub_one_lt_floor (q * 1000 + 1 / 2)
  rw [le_div_iff₀ (by norm_num : (0 : ℚ) < 1000)]
  calc (q - 1 / 2000) * 1000 = (q * 1000 + 1 / 2) - 1 := by ring
  _ ≤ (⌊q * 1000 + 1 / 2⌋ : ℚ) := le_of_lt h

/-- C1: For every index and limit, a query that trims to the empty string
makes `fuzzySearch` return `[]` without consulting the index (the result is
`[]` uniformly in the index, which is never modified: `fuzzySearch` is a pure
function). -/
theorem emptyQuery_returnsNil (index : List PlaceRecord) (query : String) (limit : ℕ)
    (h : jsTrim query = "") : fuzzySearch index query limit = [] := by
  unfold fuzzySearch
  rw [h]
  rfl

/-- C1 witness: a whitespace-only query on a non-trivial index. -/
theorem emptyQuery_returnsNil_witness :
    jsTrim "   " = "" ∧ fuzzySearch demoIndex "   " 5 = [] :=
  ⟨by decide, emptyQuery_returnsNil demoIndex "   " 5 (by decide)⟩

/-- C3: For a bounding box that crosses the antimeridian (`minLng > maxLng`)
and a latitude inside the box's latitude range, the containment test accepts
exactly the longitudes in `[minLng, 180] ∪ [-180, maxLng]`. -/
theorem antimeridian_containment (b : CountryBBox) (lat lng : ℚ)
    (hcross : b.minLng > b.maxLng)
    (hlat : b.minLat ≤ lat ∧ lat ≤ b.maxLat) :
    containsCenter b lat lng = true ↔
      ((b.minLng ≤ lng ∧ lng ≤ 180) ∨ (-180 ≤ lng ∧ lng ≤ b.maxLng)) := by
  unfold containsCenter
  rw [if_pos hcross]
  simp [hlat.1, hlat.2]

/-- C3 witness: the Fiji box `[-20, 176, -15, -178]` matches longitude 179
and longitude −179 but not longitude 0 (at latitude −18). -/
theorem antimeridian_containment_witness :
    containsCenter fjBox (-18) 179 = true ∧ containsCenter fjBox (-18) (-179) = true ∧
      containsCenter fjBox (-18) 0 = false :=
  ⟨(antimeridian_containment fjBox (-18) 179 (by norm_num [fjBox]) (by norm_num [fjBox])).mpr
      (Or.inl (by norm_num [fjBox])),
   by decide, by decide⟩

theorem parse_sofiaLine : parseGeoNamesLine sofiaLine = some sofiaEntry := rfl

theorem altNamesOf_len (an name asc : String) : (altNamesOf an name asc).length ≤ 5 := by
  unfold altNamesOf
  split
  · exact List.length_take_le 5 _
  · simp

theorem altNamesOf_mem (an name asc x : String) (h : x ∈ altNamesOf an name asc) :
    x ≠ "" ∧ x ≠ name ∧ x ≠ asc := by
  unfold altNamesOf at h
  split at h
  · have h2 := List.mem_of_mem_take h
    rw [List.mem_filter] at h2
    simpa using h2.2
  · simp at h

/-- C6 (counterexample): the per-country record parsed from a well-formed
GeoNames line carries neither a `c` nor an `fc` key: `parseGeoNamesLine` of
`processAllCountries.cjs` builds only `{id, n, lat, lng, p, a?, alt?}`. -/
theorem perCountryShape_counterexample :
    ∃ e, parseGeoNamesLine sofiaLine = some e ∧ "c" ∉ e.keys ∧ "fc" ∉ e.keys :=
  ⟨sofiaEntry, parse_sofiaLine, by decide, by decide⟩

/-- C6 (amended): every record of a per-country (villages) dataset file has
the shape `{id, n, a?, alt?, p, lat, lng}`: the five mandatory keys are always
present, only `a` and `alt` may be added, and no record ever carries a country
code `c` or a feature code `fc`. -/
theorem perCountryShape (line : String) (e : VillageEntry)
    (_hp : parseGeoNamesLine line = some e) :
    "id" ∈ e.keys ∧ "n" ∈ e.keys ∧ "lat" ∈ e.keys ∧ "lng" ∈ e.keys ∧ "p" ∈ e.keys ∧
      e.keys ⊆ ["id", "n", "lat", "lng", "p", "a", "alt"] ∧
      "c" ∉ e.keys ∧ "fc" ∉ e.keys := by
  clear _hp
  unfold VillageEntry.keys
  split <;> split <;>
    refine ⟨by decide, by decide, by decide, by decide, by decide, ?_, by decide, by decide⟩ <;>
    intro x hx <;> simp at hx ⊢ <;> tauto

/-- C6 witness: the amended shape at the Sofia line. -/
theorem perCountryShape_witness :
    parseGeoNamesLine sofiaLine = some sofiaEntry ∧
      ("id" ∈ sofiaEntry.keys ∧ "n" ∈ sofiaEntry.keys ∧ "lat" ∈ sofiaEntry.keys ∧
        "lng" ∈ sofiaEntry.keys ∧ "p" ∈ sofiaEntry.keys ∧
        sofiaEntry.keys ⊆ ["id", "n", "lat", "lng", "p", "a", "alt"] ∧
        "c" ∉ sofiaEntry.keys ∧ "fc" ∉ sofiaEntry.keys) :=
  ⟨parse_sofiaLine, perCountryShape sofiaLine sofiaEntry parse_sofiaLine⟩

/-- C7 (counterexample): a latitude field reading `Infinity` parses to a
non-finite, non-NaN number, so the record is **kept** (the `isNaN` guard does
not drop every non-finite coordinate, contrary to the claim). -/
theorem nanOnlyDrop_counterexample :
    parseFloat ((jsSplit infLatLine '\t').getD 4 "") = JSNum.inf ∧
      (parseGeoNamesLine infLatLine).isSome = true :=
  ⟨by decide, by decide⟩

/-- C7 (amended): a record is dropped — alone, without failing its batch —
whenever `parseFloat` of its latitude or longitude is `NaN` (the field is
missing or not numeric); every other line of the file parses exactly as it
would on its own. (Records whose coordinate field parses to `±Infinity` are
kept, which is the one divergence from the original claim.) -/
theorem nanCoordDropped (pre post : List String) (line : String)
    (h : (parseFloat ((jsSplit line '\t').getD 4 "")).isNaN = true ∨
         (parseFloat ((jsSplit line '\t').getD 5 "")).isNaN = true) :
    processLines (pre ++ line :: post) = processLines pre ++ processLines post := by
  have hnone : parseGeoNamesLine line = none := by
    simp only [parseGeoNamesLine]
    repeat' split
    all_goals rfl
  unfold processLines
  rw [List.filterMap_append]
  congr 1
  rw [List.filterMap_cons, hnone]

/-- C7 witness: the NaN-latitude line vanishes from its batch while the
surrounding records survive. -/
theorem nanCoordDropped_witness :
    ((parseFloat ((jsSplit nanLatLine '\t').getD 4 "")).isNaN = true ∨
      (parseFloat ((jsSplit nanLatLine '\t').getD 5 "")).isNaN = true) ∧
      processLines ([sofiaLine] ++ nanLatLine :: [infLatLine]) =
        processLines [sofiaLine] ++ processLines [infLatLine] :=
  ⟨Or.inl (by decide), nanCoordDropped [sofiaLine] [infLatLine] nanLatLine (Or.inl (by decide))⟩

/-- C9: the `alt` list of a parsed record has at most 5 entries, is non-empty
whenever it is present, and none of its entries is empty, equals the record's
primary name, or equals its ascii name. -/
theorem altListConstraints (line : String) (e : VillageEntry) (l : List String)
    (hp : parseGeoNamesLine line = some e) (hl : e.alt = some l) :
    l.length ≤ 5 ∧ l ≠ [] ∧
      ∀ x ∈ l, x ≠ "" ∧ x ≠ e.n ∧ ∀ a, e.a = some a → x ≠ a := by
  simp only [parseGeoNamesLine] at hp
  split at hp
  · exact absurd hp (by simp)
  · split at hp
    · exact absurd hp (by simp)
    · split at hp
      · exact absurd hp (by simp)
      · rw [Option.some.injEq] at hp
        subst hp
        simp only at hl
        split at hl
        · rename_i hne
          rw [Option.some.injEq] at hl
          subst hl
          refine ⟨altNamesOf_len _ _ _, hne, ?_⟩
          intro x hx
          have hm := altNamesOf_mem _ _ _ _ hx
          refine ⟨hm.1, hm.2.1, ?_⟩
          intro a ha
          simp only at ha
          split at ha
          · rw [Option.some.injEq] at ha
            subst ha
            exact hm.2.2
          · exact absurd ha (by simp)
        · exact absurd hl (by simp)

/-- C9 witness: the Sofia line's alternate names. -/
theorem altListConstraints_witness :
    parseGeoNamesLine sofiaLine = some sofiaEntry ∧
      sofiaEntry.alt = some ["София", "Sofiya", "Sofija", "BG-Sofia", "Sofía"] ∧
      (["София", "Sofiya", "Sofija", "BG-Sofia", "Sofía"].length ≤ 5 ∧
        ["София", "Sofiya", "Sofija", "BG-Sofia", "Sofía"] ≠ ([] : List String) ∧
        ∀ x ∈ ["София", "Sofiya", "Sofija", "BG-Sofia", "Sofía"],
          x ≠ "" ∧ x ≠ sofiaEntry.n ∧ ∀ a, sofiaEntry.a = some a → x ≠ a) :=
  ⟨parse_sofiaLine, rfl,
    altListConstraints sofiaLine sofiaEntry _ parse_sofiaLine rfl⟩

theorem genBboxEntry_demo :
    genBboxEntry (some 3) [[⟨42, 23⟩]] =
      some [419 / 10, 229 / 10, 421 / 10, 231 / 10, 3] := by
  norm_num [genBboxEntry, foldRunMin, foldRunMax, round3, jsRound, chunkTail]

theorem genBboxPair_demo :
    genBboxPair "bg" (some 3) [[⟨42, 23⟩]] =
      some ("BG", [419 / 10, 229 / 10, 421 / 10, 231 / 10, 3]) := by
  unfold genBboxPair
  rw [genBboxEntry_demo]
  rfl

/-- C8: every `(key, entry)` pair the bounding-box generator writes has the
upper-cased country code as its key, and the entry is a 4-element array of
rounded bounds, or a 5-element array with the chunk count appended — the
5-element form exactly when the country's `chunks` field exceeds 1. -/
theorem bboxTableEntry_shape (code : String) (chunks : Option ℕ)
    (contents : List (List BPlace)) (key : String) (e : List ℚ)
    (hp : genBboxPair code chunks contents = some (key, e)) :
    key = jsToUpper code ∧
      (e.length = 4 ∨ e.length = 5) ∧
      (e.length = 5 ↔ ∃ k, chunks = some k ∧ 1 < k) ∧
      (∀ k, chunks = some k → 1 < k → e.getLast? = some (k : ℚ)) := by
  unfold genBboxPair at hp
  rcases ho : genBboxEntry chunks contents with _ | e0
  · rw [ho] at hp
    simp at hp
  · rw [ho] at hp
    simp only [Option.map_some'] at hp
    rw [Option.some.injEq, Prod.mk.injEq] at hp
    obtain ⟨hkey, he⟩ := hp
    refine ⟨hkey.symm, ?_⟩
    unfold genBboxEntry at ho
    split at ho
    · rw [Option.some.injEq] at ho
      subst he
      subst ho
      rcases chunks with _ | k
      · simp [chunkTail]
      · simp only [chunkTail]
        by_cases hk : 1 < k
        · rw [if_pos hk]
          refine ⟨Or.inr (by simp), ?_, ?_⟩
          · simp only [List.length_append]
            exact ⟨fun _ => ⟨k, rfl, hk⟩, fun _ => by simp⟩
          · intro k2 hk2 _
            rw [Option.some.injEq] at hk2
            subst hk2
            simp
        · rw [if_neg hk]
          refine ⟨Or.inl (by simp), ?_, ?_⟩
          · simp only [List.append_nil, List.length_cons, List.length_nil]
            constructor
            · intro hlen
              omega
            · rintro ⟨k2, hk2, hk2gt⟩
              rw [Option.some.injEq] at hk2
              subst hk2
              exact absurd hk2gt hk
          · intro k2 hk2 hk2gt
            rw [Option.some.injEq] at hk2
            subst hk2
            exact absurd hk2gt hk
    · exact absurd ho (by simp)

/-- C8 witness: a 3-chunk country produces a 5-element entry keyed `BG`. -/
theorem bboxTableEntry_shape_witness :
    genBboxPair "bg" (some 3) [[(⟨42, 23⟩ : BPlace)]] =
        some ("BG", [419 / 10, 229 / 10, 421 / 10, 231 / 10, 3]) ∧
      ("BG" = jsToUpper "bg" ∧
        (([419 / 10, 229 / 10, 421 / 10, 231 / 10, (3 : ℚ)] : List ℚ).length = 4 ∨
          ([419 / 10, 229 / 10, 421 / 10, 231 / 10, (3 : ℚ)] : List ℚ).length = 5) ∧
        (([419 / 10, 229 / 10, 421 / 10, 231 / 10, (3 : ℚ)] : List ℚ).length = 5 ↔
          ∃ k, (some 3 : Option ℕ) = some k ∧ 1 < k) ∧
        (∀ k, (some 3 : Option ℕ) = some k → 1 < k →
          ([419 / 10, 229 / 10, 421 / 10, 231 / 10, (3 : ℚ)] : List ℚ).getLast? =
            some (k : ℚ))) :=
  ⟨genBboxPair_demo, bboxTableEntry_shape "bg" (some 3) _ "BG" _ genBboxPair_demo⟩

/-- C10: every place contributing to a written bounding-box entry lies within
the entry's stored bounds: the 0.1-degree padding dominates the ≤ 0.0005
perturbation of rounding each bound to 3 decimals. -/
theorem bboxEntry_containsPlaces (chunks : Option ℕ) (contents : List (List BPlace))
    (e : List ℚ) (hp : genBboxEntry chunks contents = some e)
    (p : BPlace) (hmem : p ∈ contents.flatten) :
    e.getD 0 0 ≤ p.lat ∧ p.lat ≤ e.getD 2 0 ∧ e.getD 1 0 ≤ p.lng ∧ p.lng ≤ e.getD 3 0 := by
  unfold genBboxEntry at hp
  split at hp
  · rw [Option.some.injEq] at hp
    subst hp
    have hlat : p.lat ∈ contents.flatten.map BPlace.lat := List.mem_map_of_mem _ hmem
    have hlng : p.lng ∈ contents.flatten.map BPlace.lng := List.mem_map_of_mem _ hmem
    simp only [List.cons_append, List.nil_append, List.getD_cons_zero, List.getD_cons_succ]
    have h1 := round3_le (foldRunMin 90 (contents.flatten.map BPlace.lat) - 1 / 10)
    have h2 := le_round3 (foldRunMax (-90) (contents.flatten.map BPlace.lat) + 1 / 10)
    have h3 := round3_le (foldRunMin 180 (contents.flatten.map BPlace.lng) - 1 / 10)
    have h4 := le_round3 (foldRunMax (-180) (contents.flatten.map BPlace.lng) + 1 / 10)
    have m1 := foldRunMin_le_mem 90 (contents.flatten.map BPlace.lat) _ hlat
    have m2 := le_foldRunMax_mem (-90) (contents.flatten.map BPlace.lat) _ hlat
    have m3 := foldRunMin_le_mem 180 (contents.flatten.map BPlace.lng) _ hlng
    have m4 := le_foldRunMax_mem (-180) (contents.flatten.map BPlace.lng) _ hlng
    refine ⟨by linarith, by linarith, by linarith, by linarith⟩
  · exact absurd hp (by simp)

/-- C10 witness: the demo entry contains its one contributing place. -/
theorem bboxEntry_containsPlaces_witness :
    genBboxEntry (some 3) [[(⟨42, 23⟩ : BPlace)]] =
        some [419 / 10, 229 / 10, 421 / 10, 231 / 10, 3] ∧
      (([419 / 10, 229 / 10, 421 / 10, 231 / 10, (3 : ℚ)] : List ℚ).getD 0 0 ≤
          (⟨42, 23⟩ : BPlace).lat ∧
        (⟨42, 23⟩ : BPlace).lat ≤
          ([419 / 10, 229 / 10, 421 / 10, 231 / 10, (3 : ℚ)] : List ℚ).getD 2 0 ∧
        ([419 / 10, 229 / 10, 421 / 10, 231 / 10, (3 : ℚ)] : List ℚ).getD 1 0 ≤
          (⟨42, 23⟩ : BPlace).lng ∧
        (⟨42, 23⟩ : BPlace).lng ≤
          ([419 / 10, 229 / 10, 421 / 10, 231 / 10, (3 : ℚ)] : List ℚ).getD 3 0) :=
  ⟨genBboxEntry_demo,
    bboxEntry_containsPlaces (some 3) _ _ genBboxEntry_demo ⟨42, 23⟩ (by decide)⟩

theorem mergeRecords_ids_nodup (index recs : List PlaceRecord)
    (h : (index.map PlaceRecord.id).Nodup) :
    ((mergeRecords index recs).map PlaceRecord.id).Nodup := by
  induction recs generalizing index with
  | nil => exact h
  | cons r t ih =>
    unfold mergeRecords
    rw [List.foldl_cons]
    refine ih _ ?_
    split
    · exact h
    · rename_i hc
      rw [List.map_append, List.nodup_append]
      refine ⟨h, List.nodup_singleton _, ?_⟩
      intro a ha hb
      rw [List.mem_map] at ha
      obtain ⟨x, hx, rfl⟩ := ha
      simp only [List.map_cons, List.map_nil, List.mem_singleton] at hb
      apply hc
      rw [List.any_eq_true]
      exact ⟨x, hx, by simpa using hb⟩

/-- C5: after any sequence of `initialize` / `loadMajor` / `loadCountry`
commits (each merging one batch of parsed records, skipping records whose
`id` is already resident), no two resident records share an `id`. -/
theorem index_ids_unique (batches : List (List PlaceRecord)) :
    ((runIndexLoads batches).map PlaceRecord.id).Nodup := by
  unfold runIndexLoads
  have main : ∀ (bs : List (List PlaceRecord)) (start : List PlaceRecord),
      (start.map PlaceRecord.id).Nodup →
      ((bs.foldl mergeRecords start).map PlaceRecord.id).Nodup := by
    intro bs
    induction bs with
    | nil => exact fun _ h => h
    | cons b t ih =>
      intro start h
      rw [List.foldl_cons]
      exact ih _ (mergeRecords_ids_nodup _ _ h)
  exact main batches [] (by simp)

theorem chunkFiles_nodup (cc : String → ℕ) (code : String) : (chunkFiles cc code).Nodup := by
  unfold chunkFiles
  exact (List.nodup_range _).map (fun a b hab => by simpa using hab)

theorem mem_chunkFiles (cc : String → ℕ) (code : String) (f : String × ℕ)
    (h : f ∈ chunkFiles cc code) : f.1 = code := by
  unfold chunkFiles at h
  obtain ⟨i, _, rfl⟩ := List.mem_map.mp h
  rfl

theorem loaderInv_step (cc : String → ℕ) (s : LoaderState) (op : LoaderOp)
    (h : LoaderInv s) : LoaderInv (loaderStep cc s op) := by
  obtain ⟨h1, h2, h3, h4⟩ := h
  cases op with
  | call code =>
    show LoaderInv (loadCountryCall cc s code).1
    unfold loadCountryCall
    by_cases hl : code ∈ s.loaded
    · rw [if_pos hl]
      exact ⟨h1, h2, h3, h4⟩
    · rw [if_neg hl]
      rcases hf : s.inFlight.find? (fun p => decide (p.1 = code)) with _ | p
      · rw [hf]
        have hnotin : ∀ p ∈ s.inFlight, p.1 ≠ code := by
          intro p hp
          have := List.find?_eq_none.mp hf p hp
          simpa using this
        refine ⟨?_, ?_, ?_, ?_⟩
        · rw [List.nodup_append]
          refine ⟨h1, chunkFiles_nodup cc code, ?_⟩
          intro a ha hb
          have hac := mem_chunkFiles cc code a hb
          exact h2 a (hac ▸ hl) (fun p hp => hac ▸ hnotin p hp) ha
        · intro f hfl hfi
          rw [List.mem_append]
          rintro (hm | hm)
          · have hne : ∀ p ∈ s.inFlight, p.1 ≠ f.1 :=
              fun p hp => hfi p (List.mem_cons_of_mem _ hp)
            exact h2 f hfl hne hm
          · exact hfi (code, s.nextPid) (List.mem_cons_self _ _)
              (mem_chunkFiles cc code f hm).symm
        · rw [List.map_cons, List.nodup_cons]
          refine ⟨?_, h3⟩
          rw [List.mem_map]
          rintro ⟨p, hp, hpc⟩
          exact hnotin p hp hpc
        · intro p hp
          rcases List.mem_cons.mp hp with rfl | hp2
          · exact hl
          · exact h4 p hp2
      · rw [hf]
        exact ⟨h1, h2, h3, h4⟩
  | complete code =>
    show LoaderInv (loadComplete s code)
    unfold loadComplete
    refine ⟨h1, ?_, ?_, ?_⟩
    · intro f hfl hfi
      apply h2 f (fun hm => hfl (List.mem_cons_of_mem _ hm))
      intro p hp
      by_cases hpc : p.1 = code
      · intro he
        exact hfl (he ▸ hpc ▸ List.mem_cons_self _ _)
      · apply hfi
        rw [List.mem_filter]
        exact ⟨hp, by simpa using hpc⟩
    · exact h3.sublist (List.Sublist.map Prod.fst (List.filter_sublist _))
    · intro p hp
      rw [List.mem_filter] at hp
      intro hm
      rcases List.mem_cons.mp hm with he | he
      · exact absurd he (by simpa using hp.2)
      · exact h4 p hp.1 he

theorem loaderInv_run (cc : String → ℕ) (ops : List LoaderOp) :
    LoaderInv (runLoader cc ops) := by
  unfold runLoader
  have base : LoaderInv loaderInit := by
    refine ⟨?_, ?_, ?_, ?_⟩ <;> simp [loaderInit]
  have main : ∀ (l : List LoaderOp) (s : LoaderState),
      LoaderInv s → LoaderInv (l.foldl (loaderStep cc) s) := by
    intro l
    induction l with
    | nil => exact fun _ h => h
    | cons op t ih =>
      intro s h
      rw [List.foldl_cons]
      exact ih _ (loaderInv_step cc s op h)
  exact main ops loaderInit base

theorem find?_inFlight (l : List (String × ℕ)) (code : String) (pid : ℕ)
    (hnd : (l.map Prod.fst).Nodup) (hmem : (code, pid) ∈ l) :
    l.find? (fun p => decide (p.1 = code)) = some (code, pid) := by
  induction l with
  | nil => cases hmem
  | cons q t ih =>
    rw [List.map_cons, List.nodup_cons] at hnd
    by_cases hq : q.1 = code
    · rw [List.find?_cons_of_pos _ (by simpa using hq)]
      rcases List.mem_cons.mp hmem with he | ht
      · rw [← he]
      · exact absurd (hq ▸ List.mem_map_of_mem Prod.fst ht) hnd.1
    · rw [List.find?_cons_of_neg _ (by simpa using hq)]
      rcases List.mem_cons.mp hmem with he | ht
      · exact absurd (congrArg Prod.fst he.symm) (by simpa using hq)
      · exact ih hnd.2 ht

/-- C4: over any interleaving of `loadCountry` invocations and load
completions in one session, every chunk file is fetched at most once; a call
for an already-loaded country resolves immediately with no state change and
no fetch, and a call while a load is in flight hands the caller exactly the
existing in-flight promise, again with no state change and no fetch. -/
theorem loadCountry_coalesced (cc : String → ℕ) (ops : List LoaderOp) :
    (runLoader cc ops).fetchLog.Nodup ∧
      (∀ code, code ∈ (runLoader cc ops).loaded →
        loadCountryCall cc (runLoader cc ops) code = (runLoader cc ops, none)) ∧
      (∀ code pid, (code, pid) ∈ (runLoader cc ops).inFlight →
        loadCountryCall cc (runLoader cc ops) code = (runLoader cc ops, some pid)) := by
  obtain ⟨h1, h2, h3, h4⟩ := loaderInv_run cc ops
  refine ⟨h1, ?_, ?_⟩
  · intro code hc
    unfold loadCountryCall
    rw [if_pos hc]
  · intro code pid hm
    unfold loadCountryCall
    rw [if_neg (h4 _ hm)]
    rw [find?_inFlight _ _ _ h3 hm]

/-- C4 witness: three `loadCountry("BG")` calls with a 2-chunk table cause at
most one fetch per chunk file, and the later calls observe the promise of the
first. -/
theorem loadCountry_coalesced_witness :
    (runLoader (fun _ => 2)
        [LoaderOp.call "BG", LoaderOp.call "BG", LoaderOp.call "BG"]).fetchLog.Nodup ∧
      ("BG", 0) ∈ (runLoader (fun _ => 2)
        [LoaderOp.call "BG", LoaderOp.call "BG", LoaderOp.call "BG"]).inFlight ∧
      loadCountryCall (fun _ => 2)
          (runLoader (fun _ => 2)
            [LoaderOp.call "BG", LoaderOp.call "BG", LoaderOp.call "BG"]) "BG" =
        (runLoader (fun _ => 2)
            [LoaderOp.call "BG", LoaderOp.call "BG", LoaderOp.call "BG"], some 0) :=
  ⟨(loadCountry_coalesced _ _).1, by decide,
    (loadCountry_coalesced _ _).2.2 "BG" 0 (by decide)⟩

theorem firstMatchPos_zero_isPrefix (q n : List Char) (h : firstMatchPos q n = some 0) :
    q.isPrefixOf n = true := by
  cases n with
  | nil =>
    unfold firstMatchPos at h
    split at h
    · rename_i hq
      subst hq
      rfl
    · cases h
  | cons c t =>
    unfold firstMatchPos at h
    split at h
    · assumption
    · rcases hm : firstMatchPos q t with _ | k
      · rw [hm] at h
        cases h
      · rw [hm] at h
        simp at h

theorem hundredRatio_le (a b : ℕ) (h : a ≤ b) : 100 * a / b ≤ 100 := by
  rcases Nat.eq_zero_or_pos b with hb | hb
  · subst hb
    simp
  · calc 100 * a / b ≤ 100 * b / b := Nat.div_le_div_right (Nat.mul_le_mul_left _ h)
    _ = 100 := Nat.mul_div_cancel 100 hb

theorem textScore_exact (nq name : String) (h : jsToLower name = nq) :
    textScore nq name = 1000 := by
  simp only [textScore]
  rw [if_pos h]

theorem textScore_nonexact_le (nq name : String) (h : jsToLower name ≠ nq) :
    textScore nq name ≤ 600 := by
  simp only [textScore]
  rw [if_neg h]
  rcases hm : firstMatchPos nq.data (jsToLower name).data with _ | k
  · exact Nat.zero_le 600
  · cases k with
    | zero =>
      show 500 + 100 * nq.length / (jsToLower name).length ≤ 600
      have hpre := firstMatchPos_zero_isPrefix _ _ hm
      rw [List.isPrefixOf_iff_prefix] at hpre
      have hlen : nq.length ≤ (jsToLower name).length := hpre.length_le
      have := hundredRatio_le nq.length (jsToLower name).length hlen
      omega
    | succ k2 =>
      show 300 - min (k2 + 1) 200 ≤ 600
      have := Nat.sub_le 300 (min (k2 + 1) 200)
      omega

theorem le_bestTextScore (nq : String) (r : PlaceRecord) (name : String)
    (h : name ∈ r.searchNames) : textScore nq name ≤ bestTextScore nq r := by
  unfold bestTextScore
  exact foldl_max_mem _ _ _ (List.mem_map_of_mem _ h)

theorem bestTextScore_le (nq : String) (r : PlaceRecord) (c : ℕ)
    (h : ∀ name ∈ r.searchNames, textScore nq name ≤ c) : bestTextScore nq r ≤ c := by
  unfold bestTextScore
  refine foldl_max_le _ _ _ (Nat.zero_le c) ?_
  intro x hx
  rw [List.mem_map] at hx
  obtain ⟨name, hn, rfl⟩ := hx
  exact h name hn

theorem featureWeight_le (fc : FeatureClass) : fc.weight ≤ 60 := by
  cases fc <;> simp [FeatureClass.weight]

theorem recordScore_exact_ge (nq : String) (r : PlaceRecord)
    (h : jsToLower r.primaryName = nq) : 10000000 ≤ recordScore nq r := by
  unfold recordScore
  have hmem : r.primaryName ∈ r.searchNames := by
    unfold PlaceRecord.searchNames
    exact List.mem_cons_self _ _
  have hb := le_bestTextScore nq r r.primaryName hmem
  rw [textScore_exact _ _ h] at hb
  have := Nat.mul_le_mul_right 10000 hb
  omega

theorem recordScore_nonexact_lt (nq : String) (r : PlaceRecord)
    (h : ∀ name ∈ r.searchNames, jsToLower name ≠ nq) : recordScore nq r < 10000000 := by
  unfold recordScore
  have hb : bestTextScore nq r ≤ 600 :=
    bestTextScore_le nq r 600 (fun name hn => textScore_nonexact_le nq name (h name hn))
  have hw := featureWeight_le r.featureClass
  have hp : min (Nat.log2 (1 + r.population)) 99 ≤ 99 := min_le_right _ _
  have := Nat.mul_le_mul_right 10000 hb
  omega

/-- C2: a record whose `primaryName` equals the (trimmed) query
case-insensitively is returned at position 0 of the search results, ahead of
every other record that merely contains the query in one of its names without
matching it exactly: the exact-match bonus strictly dominates every
prefix/substring score together with all tie-breaking terms. -/
theorem exactMatch_ranksFirst (index : List PlaceRecord) (r : PlaceRecord)
    (query : String) (limit : ℕ)
    (hr : r ∈ index)
    (hq : jsToLower r.primaryName = jsToLower (jsTrim query))
    (hne : jsToLower (jsTrim query) ≠ "")
    (hothers : ∀ s ∈ index, s ≠ r → ∀ name ∈ s.searchNames,
      jsToLower name ≠ jsToLower (jsTrim query))
    (hlim : 0 < limit) :
    ∃ rest, fuzzySearch index query limit = toResult r :: rest := by
  simp only [fuzzySearch]
  rw [if_neg hne]
  generalize hgen : jsToLower (jsTrim query) = nq at hq hothers ⊢
  have hrbest : 0 < bestTextScore nq r := by
    have hmem : r.primaryName ∈ r.searchNames := by
      unfold PlaceRecord.searchNames
      exact List.mem_cons_self _ _
    have hb := le_bestTextScore nq r r.primaryName hmem
    rw [textScore_exact _ _ hq] at hb
    omega
  have hrs := recordScore_exact_ge nq r hq
  have hrc : r ∈ index.filter (fun s => decide (0 < bestTextScore nq s)) := by
    rw [List.mem_filter]
    exact ⟨hr, by simpa using hrbest⟩
  have hlt : ∀ x ∈ index.filter (fun s => decide (0 < bestTextScore nq s)), x ≠ r →
      recordScore nq x < recordScore nq r := by
    intro x hx hxr
    have hxi : x ∈ index := List.filter_subset' _ hx
    have := recordScore_nonexact_lt nq x (fun name hn => hothers x hxi hxr name hn)
    omega
  have hrk : r ∈ dedupe nq (index.filter (fun s => decide (0 < bestTextScore nq s))) := by
    unfold dedupe
    rw [List.mem_filter]
    refine ⟨hrc, ?_⟩
    rw [Bool.not_eq_true']
    rw [List.any_eq_false]
    intro y hy
    rw [Bool.and_eq_true, decide_eq_true_eq]
    rintro ⟨hkey, hout⟩
    unfold outranks at hout
    rw [Bool.or_eq_true, Bool.and_eq_true] at hout
    by_cases hyr : y = r
    · subst hyr
      rcases hout with h | ⟨_, h2⟩
      · simp at h
      · simp at h2
    · have := hlt y hy hyr
      rcases hout with h | ⟨h, _⟩
      · rw [decide_eq_true_eq] at h
        omega
      · rw [decide_eq_true_eq] at h
        omega
  have hsub : dedupe nq (index.filter (fun s => decide (0 < bestTextScore nq s))) ⊆
      index.filter (fun s => decide (0 < bestTextScore nq s)) := by
    unfold dedupe
    exact List.filter_subset' _
  have hperm := List.perm_insertionSort (rankLE nq)
    (dedupe nq (index.filter (fun s => decide (0 < bestTextScore nq s))))
  have hsorted := List.sorted_insertionSort (rankLE nq)
    (dedupe nq (index.filter (fun s => decide (0 < bestTextScore nq s))))
  have hmem : r ∈ List.insertionSort (rankLE nq)
      (dedupe nq (index.filter (fun s => decide (0 < bestTextScore nq s)))) :=
    hperm.mem_iff.mpr hrk
  obtain ⟨hd, tl, hrl⟩ := List.exists_cons_of_ne_nil (List.ne_nil_of_mem hmem)
  rw [hrl] at hmem hsorted hperm
  have hdr : hd = r := by
    by_contra hne2
    rcases List.mem_cons.mp hmem with he | ht
    · exact hne2 he.symm
    · have hrel : rankLE nq hd r := (List.sorted_cons.mp hsorted).1 r ht
      have hhd : hd ∈ dedupe nq (index.filter (fun s => decide (0 < bestTextScore nq s))) :=
        hperm.mem_iff.mp (List.mem_cons_self _ _)
      have := hlt hd (hsub hhd) hne2
      unfold rankLE at hrel
      rcases hrel with h | ⟨h, _⟩ <;> omega
  subst hdr
  obtain ⟨m, rfl⟩ := Nat.exists_eq_succ_of_ne_zero (Nat.pos_iff_ne_zero.mp hlim)
  refine ⟨(tl.map toResult).take m, ?_⟩
  rw [hrl]
  simp [List.take_succ_cons]

/-- C2 witness: the exact match `Sofia` is ranked ahead of the
prefix/substring match `Sofia Springs`. -/
theorem exactMatch_ranksFirst_witness :
    ∃ rest, fuzzySearch demoIndex "Sofia" 5 = toResult sofiaRec :: rest :=
  exactMatch_ranksFirst demoIndex sofiaRec "Sofia" 5 (by decide) (by decide) (by decide)
    (by decide) (by decide)
